import Mathlib

set_option maxHeartbeats 1000000

/- Shallow embedding of the numerical core of the repository:
   the feature-engineering transform (src/project/processing.py),
   the Monte Carlo GBM simulator (src/term-project/simulation/monte_carlo.py),
   the portfolio aggregator (src/term-project/simulation/portfolio.py) and
   the ETL orchestration (src/term-project/etl/transform_data.py).
   Double-precision floating point is modelled by the real numbers; an
   undefined entry (NaN) is modelled by Option, with none standing for NaN.
   Database reads are modelled by passing the stored rows (or a map from
   ticker to rows) as an explicit argument; exceptions are modelled by
   Except. -/

/- Configuration constant from src/term-project/config.py. -/
def TRADING_DAYS_PER_YEAR : ℕ := 252

/- Daily time step dt = 1.0 / TRADING_DAYS_PER_YEAR, as computed inside
   simulate_single_path. -/
noncomputable def dt : ℝ := 1 / (TRADING_DAYS_PER_YEAR : ℝ)

/- Mean of a pandas series, series.mean(). -/
noncomputable def listMean (xs : List ℝ) : ℝ := xs.sum / xs.length

/- Sample variance with ddof = 1, the default of pandas series.std()
   before the square root. -/
noncomputable def listSampleVar (xs : List ℝ) : ℝ :=
  (xs.map (fun x => (x - listMean xs) ^ 2)).sum / ((xs.length - 1 : ℕ) : ℝ)

/- Sample standard deviation, pandas series.std() with ddof = 1. -/
noncomputable def listSampleStd (xs : List ℝ) : ℝ := Real.sqrt (listSampleVar xs)

/- Percent change (curr - prev) / prev between two adjacent entries, as in
   pandas pct_change.  The IEEE evaluation yields NaN exactly when the
   quotient is 0 / 0; that case is modelled by none.  A division of a
   nonzero numerator by zero yields an IEEE infinity, which pandas dropna
   keeps; inputs with zero denominators and nonzero numerators are outside
   the hypotheses of every theorem below, so the finite value stored in
   that branch is never relied upon. -/
open Classical in
noncomputable def pctChangeF (prev curr : ℝ) : Option ℝ :=
  if prev = 0 ∧ curr = 0 then none else some ((curr - prev) / prev)

/- One GBM step and the price after k daily steps, the loop of
   simulate_single_path in monte_carlo.py:
   price = price * exp((mu - 0.5 * sigma^2) * dt + sigma * sqrt(dt) * Z). -/
noncomputable def gbm_price (starting_price annual_mean annual_std : ℝ)
    (Z : ℕ → ℝ) : ℕ → ℝ
  | 0 => starting_price
  | k + 1 => gbm_price starting_price annual_mean annual_std Z k *
      Real.exp ((annual_mean - 0.5 * annual_std ^ 2) * dt +
        annual_std * Real.sqrt dt * Z k)

/- Pure core of simulate_single_path: number of shares
   initial_value / starting_price, then years * 252 GBM steps, then
   final value = shares * final price. -/
noncomputable def simulate_single_path (starting_price initial_value : ℝ)
    (years : ℕ) (annual_mean annual_std : ℝ) (Z : ℕ → ℝ) : ℝ :=
  (initial_value / starting_price) *
    gbm_price starting_price annual_mean annual_std Z
      (years * TRADING_DAYS_PER_YEAR)

/- One row of the processed_market_data table as read by
   load_historical_data: date (as an ordinal), close, and the stored
   return column, which may be NULL/NaN (none). -/
structure HistRow where
  date : ℕ
  close : ℝ
  ret : Option ℝ

/- Recomputation of the return column inside load_historical_data:
   df.close.pct_change() followed by df.dropna().  Row 0 always gets NaN
   from pct_change and is dropped; a later row is dropped exactly when its
   percent change is NaN. -/
noncomputable def deriveReturns (rows : List HistRow) : List HistRow :=
  (rows.zip rows.tail).filterMap (fun pc =>
    (pctChangeF pc.1.close pc.2.close).map (fun r => { pc.2 with ret := some r }))

/- load_historical_data from monte_carlo.py: raises when the query result
   is empty, recomputes returns when the stored return column is entirely
   NaN, and otherwise returns the rows unchanged. -/
noncomputable def load_historical_data (ticker : String) (rows : List HistRow) :
    Except String (List HistRow) :=
  if rows.isEmpty then .error s!"No historical data found for {ticker}"
  else if rows.all (fun r => r.ret.isNone) then .ok (deriveReturns rows)
  else .ok rows

/- calculate_statistics from monte_carlo.py: annualized mean and
   volatility, mean_daily * 252 and std_daily * sqrt(252). -/
noncomputable def calculate_statistics (returns_series : List ℝ) : ℝ × ℝ :=
  (listMean returns_series * (TRADING_DAYS_PER_YEAR : ℝ),
   listSampleStd returns_series * Real.sqrt (TRADING_DAYS_PER_YEAR : ℝ))

/- get_starting_price from monte_carlo.py: the most recent close
   (ORDER BY date DESC LIMIT 1 over date-ascending rows is the last row),
   raising when no row exists. -/
def get_starting_price (ticker : String) (rows : List HistRow) : Except String ℝ :=
  match rows.getLast? with
  | some r => .ok r.close
  | none => .error s!"No price data found for {ticker}"

/- One output row of run_monte_carlo. -/
structure SimulationResult where
  simulation_number : ℕ
  final_value : ℝ
  return_pct : ℝ

/- simulate_single_path with its database access: the starting price is
   fetched (per trial) from the stored rows of the ticker, then the pure
   GBM path is run. -/
noncomputable def simulate_single_pathE (db : String → List HistRow)
    (ticker : String) (initial_value : ℝ) (years : ℕ)
    (annual_mean annual_std : ℝ) (Z : ℕ → ℝ) : Except String ℝ :=
  Except.bind (get_starting_price ticker (db ticker)) (fun starting_price =>
    Except.ok (simulate_single_path starting_price initial_value years
      annual_mean annual_std Z))

/- The trial record appended by the loop body of run_monte_carlo for
   simulation number k + 1, given the starting price. -/
noncomputable def mkTrial (starting_price initial_value : ℝ) (years : ℕ)
    (annual_mean annual_std : ℝ) (Zk : ℕ → ℝ) (k : ℕ) : SimulationResult :=
  ⟨k + 1,
   simulate_single_path starting_price initial_value years annual_mean annual_std Zk,
   (simulate_single_path starting_price initial_value years annual_mean annual_std Zk
      - initial_value) / initial_value * 100⟩

/- run_monte_carlo from monte_carlo.py: load the historical rows, compute
   the annualized statistics from the return column (series.mean and
   series.std skip NaN entries, hence the filterMap), then run trials
   numbered 1..num_simulations, each with its own stream of draws. -/
noncomputable def run_monte_carloE (db : String → List HistRow) (ticker : String)
    (initial_value : ℝ) (years num_simulations : ℕ) (Z : ℕ → ℕ → ℝ) :
    Except String (List SimulationResult) :=
  Except.bind (load_historical_data ticker (db ticker)) (fun df =>
    (List.range num_simulations).mapM (fun k =>
      Except.bind (simulate_single_pathE db ticker initial_value years
          (calculate_statistics (df.filterMap HistRow.ret)).1
          (calculate_statistics (df.filterMap HistRow.ret)).2 (Z k))
        (fun final_value => Except.ok (⟨k + 1, final_value,
          (final_value - initial_value) / initial_value * 100⟩ : SimulationResult))))

/- One output row of simulate_portfolio. -/
structure PortfolioResult where
  simulation_number : ℕ
  final_value : ℝ
  return_pct : ℝ

/- Contribution of one ticker at one simulation number inside the
   combining loop of simulate_portfolio: the first matching row if any,
   otherwise 0 (the if not ticker_result.empty guard). -/
noncomputable def trialValue (results_df : List SimulationResult) (sim_num : ℕ) : ℝ :=
  match results_df.find? (fun r => r.simulation_number == sim_num) with
  | some r => r.final_value
  | none => 0

/- The combining loop of simulate_portfolio: for each simulation number
   1..num_simulations, sum the final values across tickers and compute the
   portfolio return against the summed allocations. -/
noncomputable def combine_portfolio
    (ticker_results : List (String × List SimulationResult))
    (portfolio_initial : ℝ) (num_simulations : ℕ) : List PortfolioResult :=
  (List.range num_simulations).map (fun k =>
    ⟨k + 1,
     ticker_results.foldl (fun acc tr => acc + trialValue tr.2 (k + 1)) 0,
     (ticker_results.foldl (fun acc tr => acc + trialValue tr.2 (k + 1)) 0
        - portfolio_initial) / portfolio_initial * 100⟩)

/- simulate_portfolio from portfolio.py: run run_monte_carlo for every
   ticker of the portfolio in order (no per-ticker exception handling),
   then combine the per-ticker trials by simulation number. -/
noncomputable def simulate_portfolioE (db : String → List HistRow)
    (portfolio_dict : List (String × ℝ)) (years num_simulations : ℕ)
    (Z : String → ℕ → ℕ → ℝ) : Except String (List PortfolioResult) :=
  Except.bind (portfolio_dict.mapM (fun ta =>
      Except.bind (run_monte_carloE db ta.1 ta.2 years num_simulations (Z ta.1))
        (fun results_df => Except.ok (ta.1, results_df))))
    (fun ticker_results => Except.ok (combine_portfolio ticker_results
      ((portfolio_dict.map Prod.snd).sum) num_simulations))

/- transform_all_tickers from etl/transform_data.py: the per-ticker work
   (modelled by its outcome function) is wrapped in try/except, a failed
   ticker is skipped and the loop continues with the remaining tickers,
   accumulating the inserted row counts of the successful ones. -/
def transform_all_tickers (transform_ticker : String → Except String ℕ)
    (tickers : List String) : ℕ :=
  tickers.foldl (fun total_rows t =>
    match transform_ticker t with
    | .ok rows => total_rows + rows
    | .error _ => total_rows) 0

/- Feature engineering model (src/project/processing.py).  The input is
   one ticker worth of time-ordered daily bars.  The pandas calendar
   accessors (year, month, day, weekday, month start and end) are pure
   functions of the date and are modelled as data carried on the bar;
   they never produce NaN.  The frame accepted by engineer_features has a
   recognized date column, which the Bar structure guarantees. -/
structure Bar where
  date : ℕ
  year : ℕ
  month : ℕ
  day : ℕ
  weekday : ℕ
  is_month_start : Bool
  is_month_end : Bool
  open_ : ℝ
  high : ℝ
  low : ℝ
  close : ℝ
  volume : ℝ

noncomputable instance : Inhabited Bar :=
  ⟨⟨0, 0, 0, 0, 0, false, false, 0, 0, 0, 0, 0⟩⟩

/- The bar at position i (positions are always kept below the length). -/
noncomputable def barAt (bars : List Bar) (i : ℕ) : Bar := bars.getD i default

/- The close series of the frame. -/
noncomputable def closeAt (bars : List Bar) (i : ℕ) : ℝ := (barAt bars i).close

/- The volume series of the frame. -/
noncomputable def volumeAt (bars : List Bar) (i : ℕ) : ℝ := (barAt bars i).volume

/- series.diff() of a close series at position j; position 0 is NaN in
   pandas and is excluded by every consumer below through Icc 1 i. -/
noncomputable def deltaAt (close : ℕ → ℝ) (j : ℕ) : ℝ := close j - close (j - 1)

/- delta.clip(lower=0) from compute_rsi. -/
noncomputable def gainAt (close : ℕ → ℝ) (j : ℕ) : ℝ := max (deltaAt close j) 0

/- -delta.clip(upper=0) from compute_rsi. -/
noncomputable def lossAt (close : ℕ → ℝ) (j : ℕ) : ℝ :=
  max (-(deltaAt close j)) 0

/- series.ewm(alpha, adjust=True).mean() at position i over the
   observations at positions 1..i: the weight of observation j is
   (1-alpha)^(i-j); observation 0 of the diff series is NaN and pandas
   skips it while keeping the position-based weights of the others. -/
noncomputable def ewm_mean (x : ℕ → ℝ) (alpha : ℝ) (i : ℕ) : ℝ :=
  (∑ j ∈ Finset.Icc 1 i, (1 - alpha) ^ (i - j) * x j) /
    (∑ j ∈ Finset.Icc 1 i, (1 - alpha) ^ (i - j))

/- compute_rsi from processing.py at position i of the output series:
   undefined (NaN) before period non-NaN observations (min_periods);
   rs = avg_gain / avg_loss is NaN in IEEE arithmetic exactly when both
   averages are zero (0/0), and +infinity when only avg_loss is zero, in
   which case 100 - 100/(1+rs) evaluates to 100. -/
open Classical in
noncomputable def compute_rsi (close : ℕ → ℝ) (period i : ℕ) : Option ℝ :=
  if i < period then none
  else if ewm_mean (gainAt close) (1 / (period : ℝ)) i = 0 ∧
      ewm_mean (lossAt close) (1 / (period : ℝ)) i = 0 then none
  else if ewm_mean (lossAt close) (1 / (period : ℝ)) i = 0 then some 100
  else some (100 - 100 / (1 +
    ewm_mean (gainAt close) (1 / (period : ℝ)) i /
      ewm_mean (lossAt close) (1 / (period : ℝ)) i))

/- The trailing window of width w ending at position i: the series values
   at positions i+1-w .. i, the window of pandas series.rolling(w). -/
noncomputable def winList (f : ℕ → ℝ) (i w : ℕ) : List ℝ :=
  (List.range w).map (fun k => f (i + 1 - w + k))

/- volume.pct_change(): NaN at position 0. -/
noncomputable def volume_changeF (bars : List Bar) (i : ℕ) : Option ℝ :=
  if 1 ≤ i then pctChangeF (volumeAt bars (i - 1)) (volumeAt bars i) else none

/- close.shift(n): NaN at the first n positions. -/
noncomputable def close_lag (bars : List Bar) (n i : ℕ) : Option ℝ :=
  if n ≤ i then some (closeAt bars (i - n)) else none

/- close.pct_change(): NaN at position 0. -/
noncomputable def returnF (bars : List Bar) (i : ℕ) : Option ℝ :=
  if 1 ≤ i then pctChangeF (closeAt bars (i - 1)) (closeAt bars i) else none

/- return.shift(1). -/
noncomputable def return_lag_1F (bars : List Bar) (i : ℕ) : Option ℝ :=
  if 1 ≤ i then returnF bars (i - 1) else none

/- close.rolling(w).mean(): NaN until the window is full. -/
noncomputable def rolling_meanF (bars : List Bar) (w i : ℕ) : Option ℝ :=
  if w ≤ i + 1 then some (listMean (winList (closeAt bars) i w)) else none

/- close.rolling(w).std(): NaN until the window is full. -/
noncomputable def rolling_stdF (bars : List Bar) (w i : ℕ) : Option ℝ :=
  if w ≤ i + 1 then some (listSampleStd (winList (closeAt bars) i w)) else none

/- close.rolling(w).mean() / close, the moving-average ratio columns.
   The closes of every theorem below are positive, so the division is the
   IEEE one. -/
noncomputable def maF (bars : List Bar) (w i : ℕ) : Option ℝ :=
  if w ≤ i + 1 then
    some (listMean (winList (closeAt bars) i w) / closeAt bars i)
  else none

/- close.pct_change(14), the 14-row rate of change. -/
noncomputable def roc14F (bars : List Bar) (i : ℕ) : Option ℝ :=
  if 14 ≤ i then pctChangeF (closeAt bars (i - 14)) (closeAt bars i) else none

/- close.pct_change().rolling(14).std(): the guard 14 <= i keeps the NaN
   at position 0 of the pct_change series out of the window; NaN entries
   inside the window could only arise from a zero close, which the
   positive-close hypotheses of the theorems below exclude. -/
noncomputable def vol14F (bars : List Bar) (i : ℕ) : Option ℝ :=
  if 14 ≤ i then
    some (listSampleStd (winList (fun j =>
      (closeAt bars j - closeAt bars (j - 1)) / closeAt bars (j - 1)) i 14))
  else none

/- One output row of engineer_features: the bar columns together with
   every derived column of processing.py; a NaN-able derived value is an
   Option. -/
structure FeatureRow where
  date : ℕ
  year : ℕ
  month : ℕ
  day : ℕ
  weekday : ℕ
  is_month_start : Bool
  is_month_end : Bool
  open_ : ℝ
  high : ℝ
  low : ℝ
  close : ℝ
  volume : ℝ
  high_low_range : ℝ
  average_price : ℝ
  volume_change : Option ℝ
  close_lag_1 : Option ℝ
  close_lag_2 : Option ℝ
  return_ : Option ℝ
  return_lag_1 : Option ℝ
  rolling_mean_7 : Option ℝ
  rolling_std_7 : Option ℝ
  rolling_mean_30 : Option ℝ
  rolling_std_30 : Option ℝ
  ma14 : Option ℝ
  ma30 : Option ℝ
  ma50 : Option ℝ
  ma200 : Option ℝ
  rsi14 : Option ℝ
  rsi30 : Option ℝ
  rsi50 : Option ℝ
  roc14 : Option ℝ
  vol14 : Option ℝ
  up_day : Bool
  down_day : Bool

/- The fully derived row at position i, before the dropna. -/
open Classical in
noncomputable def mkRow (bars : List Bar) (i : ℕ) : FeatureRow :=
  { date := (barAt bars i).date
    year := (barAt bars i).year
    month := (barAt bars i).month
    day := (barAt bars i).day
    weekday := (barAt bars i).weekday
    is_month_start := (barAt bars i).is_month_start
    is_month_end := (barAt bars i).is_month_end
    open_ := (barAt bars i).open_
    high := (barAt bars i).high
    low := (barAt bars i).low
    close := (barAt bars i).close
    volume := (barAt bars i).volume
    high_low_range := (barAt bars i).high - (barAt bars i).low
    average_price := ((barAt bars i).open_ + (barAt bars i).high +
      (barAt bars i).low + (barAt bars i).close) / 4
    volume_change := volume_changeF bars i
    close_lag_1 := close_lag bars 1 i
    close_lag_2 := close_lag bars 2 i
    return_ := returnF bars i
    return_lag_1 := return_lag_1F bars i
    rolling_mean_7 := rolling_meanF bars 7 i
    rolling_std_7 := rolling_stdF bars 7 i
    rolling_mean_30 := rolling_meanF bars 30 i
    rolling_std_30 := rolling_stdF bars 30 i
    ma14 := maF bars 14 i
    ma30 := maF bars 30 i
    ma50 := maF bars 50 i
    ma200 := maF bars 200 i
    rsi14 := compute_rsi (closeAt bars) 14 i
    rsi30 := compute_rsi (closeAt bars) 30 i
    rsi50 := compute_rsi (closeAt bars) 50 i
    roc14 := roc14F bars i
    vol14 := vol14F bars i
    up_day := if (barAt bars i).open_ < (barAt bars i).close then true else false
    down_day := if (barAt bars i).close < (barAt bars i).open_ then true
      else false }

/- Row keeps df.dropna(): true when no derived value of the row is NaN.
   The bar columns themselves are total and never NaN. -/
def rowDefined (r : FeatureRow) : Bool :=
  r.volume_change.isSome && r.close_lag_1.isSome && r.close_lag_2.isSome &&
  r.return_.isSome && r.return_lag_1.isSome && r.rolling_mean_7.isSome &&
  r.rolling_std_7.isSome && r.rolling_mean_30.isSome &&
  r.rolling_std_30.isSome && r.ma14.isSome && r.ma30.isSome &&
  r.ma50.isSome && r.ma200.isSome && r.rsi14.isSome && r.rsi30.isSome &&
  r.rsi50.isSome && r.roc14.isSome && r.vol14.isSome

/- engineer_features from processing.py: derive every column, then
   df.dropna().reset_index(drop=True), which removes exactly the rows with
   at least one NaN derived value and keeps the order of the rest. -/
noncomputable def engineer_features (bars : List Bar) : List FeatureRow :=
  ((List.range bars.length).map (mkRow bars)).filter rowDefined

/- Column-level model of the pandas frame, for the in-place mutation
   analysis of engineer_features: an ordered association list from column
   name to cells, a NaN cell being none. -/
abbrev Col := List (Option ℝ)

/- A frame is the ordered list of its named columns. -/
abbrev Frame := List (String × Col)

/- Column assignment df[name] = col: pandas replaces the column in place
   when the name exists and appends a new column otherwise. -/
def setCol (f : Frame) (name : String) (col : Col) : Frame :=
  if f.any (fun p => p.1 == name) then
    f.map (fun p => if p.1 == name then (name, col) else p)
  else f ++ [(name, col)]

/- A column of naturals (calendar fields), stored as numbers. -/
noncomputable def natCol (bars : List Bar) (g : Bar → ℕ) : Col :=
  bars.map (fun b => some ((g b : ℕ) : ℝ))

/- A column of booleans cast with astype(int). -/
noncomputable def boolCol (bars : List Bar) (g : Bar → Bool) : Col :=
  bars.map (fun b => some (if g b then (1 : ℝ) else 0))

/- A column computed per bar, never NaN. -/
noncomputable def realCol (bars : List Bar) (g : Bar → ℝ) : Col :=
  bars.map (fun b => some (g b))

/- A column computed per position, possibly NaN. -/
noncomputable def optCol (bars : List Bar) (g : List Bar → ℕ → Option ℝ) : Col :=
  (List.range bars.length).map (g bars)

/- The date column, the date ordinals as numbers. -/
noncomputable def dateCol (bars : List Bar) : Col := natCol bars Bar.date

/- The caller frame before the call: the raw input columns. -/
noncomputable def inputFrame (bars : List Bar) : Frame :=
  [("date", dateCol bars),
   ("open", realCol bars Bar.open_),
   ("high", realCol bars Bar.high),
   ("low", realCol bars Bar.low),
   ("close", realCol bars Bar.close),
   ("volume", realCol bars Bar.volume)]

/- The in-place column assignments performed by engineer_features, in
   source order.  The first rewrites the detected date column through
   pd.to_datetime, modelled as the identity on the date ordinals. -/
open Classical in
noncomputable def assignedCols (bars : List Bar) : List (String × Col) :=
  [("date", dateCol bars),
   ("year", natCol bars Bar.year),
   ("month", natCol bars Bar.month),
   ("day", natCol bars Bar.day),
   ("weekday", natCol bars Bar.weekday),
   ("is_month_start", boolCol bars Bar.is_month_start),
   ("is_month_end", boolCol bars Bar.is_month_end),
   ("high_low_range", realCol bars (fun b => b.high - b.low)),
   ("average_price", realCol bars
     (fun b => (b.open_ + b.high + b.low + b.close) / 4)),
   ("volume_change", optCol bars volume_changeF),
   ("close_lag_1", optCol bars (fun bs => close_lag bs 1)),
   ("close_lag_2", optCol bars (fun bs => close_lag bs 2)),
   ("return", optCol bars returnF),
   ("return_lag_1", optCol bars return_lag_1F),
   ("rolling_mean_7", optCol bars (fun bs => rolling_meanF bs 7)),
   ("rolling_std_7", optCol bars (fun bs => rolling_stdF bs 7)),
   ("rolling_mean_30", optCol bars (fun bs => rolling_meanF bs 30)),
   ("rolling_std_30", optCol bars (fun bs => rolling_stdF bs 30)),
   ("ma14", optCol bars (fun bs => maF bs 14)),
   ("ma30", optCol bars (fun bs => maF bs 30)),
   ("ma50", optCol bars (fun bs => maF bs 50)),
   ("ma200", optCol bars (fun bs => maF bs 200)),
   ("rsi14", optCol bars (fun bs i => compute_rsi (closeAt bs) 14 i)),
   ("rsi30", optCol bars (fun bs i => compute_rsi (closeAt bs) 30 i)),
   ("rsi50", optCol bars (fun bs i => compute_rsi (closeAt bs) 50 i)),
   ("roc14", optCol bars roc14F),
   ("vol14", optCol bars vol14F),
   ("up_day", boolCol bars
     (fun b => if b.open_ < b.close then true else false)),
   ("down_day", boolCol bars
     (fun b => if b.close < b.open_ then true else false))]

/- State of the caller frame when engineer_features returns: every
   in-place assignment applied in source order.  The returned value is a
   fresh frame produced by the final dropna, but the caller frame keeps
   all these columns. -/
noncomputable def engineer_features_effect (bars : List Bar) : Frame :=
  (assignedCols bars).foldl (fun f nc => setCol f nc.1 nc.2) (inputFrame bars)

/- A flat bar: constant price 100, volume 1. -/
noncomputable def flatBar : Bar := ⟨0, 0, 0, 0, 0, false, false, 100, 100, 100, 100, 1⟩

/- Two hundred flat bars: enough rows for the 200-row moving average, yet
   with every price delta zero. -/
noncomputable def flat200 : List Bar := List.replicate 200 flatBar

/- A two-bar input with a price move and positive closes and volumes. -/
noncomputable def wBars2 : List Bar :=
  [⟨0, 0, 0, 0, 0, false, false, 1, 1, 1, 1, 1⟩,
   ⟨1, 0, 0, 0, 0, false, false, 2, 2, 2, 2, 1⟩]

/- A single arbitrary bar for the frame mutation counterexample. -/
noncomputable def wBar1 : Bar := ⟨0, 0, 0, 0, 0, false, false, 1, 1, 1, 1, 1⟩

/- Boolean success test for Except, used to state that a call returns a
   value rather than raising. -/
def exceptIsOk {α : Type} : Except String α → Bool
  | .ok _ => true
  | .error _ => false

/- Concrete fixtures used by witness theorems below. -/

/- One stored history row: date 0, close 100, stored daily return 1. -/
noncomputable def wRow : HistRow := ⟨0, 100, some 1⟩

/- A database holding the single row above for every ticker. -/
noncomputable def wDb : String → List HistRow := fun _ => [wRow]

/- A zero random stream. -/
noncomputable def wZ2 : ℕ → ℕ → ℝ := fun _ _ => 0

/- The annualized statistics of the single stored return. -/
noncomputable def wMu : ℝ := (calculate_statistics [1]).1

/- The annualized volatility of the single stored return. -/
noncomputable def wSigma : ℝ := (calculate_statistics [1]).2

/- The final value of the single zero-horizon trial over wDb. -/
noncomputable def wVal : ℝ := simulate_single_path 100 5 0 wMu wSigma (wZ2 0)

/- The expected result list of run_monte_carlo over wDb with one trial. -/
noncomputable def wRs : List SimulationResult := [⟨1, wVal, (wVal - 5) / 5 * 100⟩]

/- A one-row history whose stored return is NaN. -/
noncomputable def wRowN : HistRow := ⟨0, 100, none⟩

/- Per-ticker trial lists for the portfolio aggregation witness; the
   second ticker has no row for trial 1. -/
noncomputable def wTickerResults : List (String × List SimulationResult) :=
  [("AAPL", [⟨1, 50, 0⟩]), ("XLF", [])]

/- A two-ticker allocation map. -/
noncomputable def wPortfolio : List (String × ℝ) := [("AAPL", 10), ("XLF", 20)]

/- A per-ticker transform outcome where only ticker A succeeds. -/
def wF : String → Except String ℕ :=
  fun s => if s = "A" then .ok 3 else .error "boom"

/- A database with no rows for any ticker. -/
noncomputable def wDbEmpty : String → List HistRow := fun _ => []

/- A database with rows only for AAPL. -/
noncomputable def wDbA : String → List HistRow :=
  fun s => if s = "AAPL" then [⟨0, 100, some 1⟩, ⟨1, 110, some 2⟩] else []

/- A zero random stream indexed by ticker. -/
noncomputable def wZ3 : String → ℕ → ℕ → ℝ := fun _ _ _ => 0

/- Closed form of the GBM loop: the price after k steps is the starting
   price times the exponential of the summed increments. -/
theorem gbm_price_closed (S0 mu sigma : ℝ) (Z : ℕ → ℝ) (k : ℕ) :
    gbm_price S0 mu sigma Z k =
      S0 * Real.exp (∑ j ∈ Finset.range k,
        ((mu - 0.5 * sigma ^ 2) * dt + sigma * Real.sqrt dt * Z j)) := by
  induction k with
  | zero => simp [gbm_price]
  | succ k ih =>
      rw [gbm_price, ih, Finset.sum_range_succ,
        Real.exp_add (∑ j ∈ Finset.range k,
          ((mu - 0.5 * sigma ^ 2) * dt + sigma * Real.sqrt dt * Z j))]
      ring

/- Fold with addition equals the sum of the mapped list. -/
theorem foldl_add_eq_sum {α M : Type} [AddCommMonoid M] (g : α → M)
    (l : List α) (a : M) :
    l.foldl (fun acc x => acc + g x) a = a + (l.map g).sum := by
  induction l generalizing a with
  | nil => simp
  | cons x xs ih => simp [ih, add_assoc]

/- mapM over Except succeeds pointwise when every element succeeds. -/
theorem mapM_ok_of_forall {α β : Type} (f : α → Except String β) (g : α → β)
    (l : List α) (h : ∀ a ∈ l, f a = .ok (g a)) :
    l.mapM f = .ok (l.map g) := by
  induction l with
  | nil => rfl
  | cons x xs ih =>
      have hx : f x = .ok (g x) := h x (List.mem_cons_self x xs)
      have hxs : xs.mapM f = .ok (xs.map g) :=
        ih (fun a ha => h a (List.mem_cons_of_mem x ha))
      rw [List.mapM_cons, hx, hxs]
      rfl

/- mapM over Except fails immediately when the head fails. -/
theorem mapM_cons_error {α β : Type} (f : α → Except String β) (x : α)
    (xs : List α) (e : String) (hx : f x = .error e) :
    (x :: xs).mapM f = .error e := by
  rw [List.mapM_cons, hx]
  rfl

/- mapM over Except fails with the error of the first failing element when
   everything before it succeeds. -/
theorem mapM_append_error {α β : Type} (f : α → Except String β)
    (l1 : List α) (x : α) (l2 : List α) (e : String)
    (h1 : ∀ a ∈ l1, ∃ b, f a = .ok b) (hx : f x = .error e) :
    (l1 ++ x :: l2).mapM f = .error e := by
  induction l1 with
  | nil => exact mapM_cons_error f x l2 e hx
  | cons y ys ih =>
      obtain ⟨b, hb⟩ := h1 y (List.mem_cons_self y ys)
      have hys := ih (fun a ha => h1 a (List.mem_cons_of_mem y ha))
      rw [List.cons_append, List.mapM_cons, hb, hys]
      rfl

/- Characterization of a successful run_monte_carlo call: the historical
   load succeeded, and either the starting price lookup succeeded and the
   result is the list of trials 1..N, or N = 0 and the result is empty. -/
theorem run_monte_carloE_ok (db : String → List HistRow) (ticker : String)
    (initial_value : ℝ) (years N : ℕ) (Z : ℕ → ℕ → ℝ)
    (rs : List SimulationResult)
    (h : run_monte_carloE db ticker initial_value years N Z = .ok rs) :
    ∃ df, load_historical_data ticker (db ticker) = .ok df ∧
      ((∃ S0, get_starting_price ticker (db ticker) = .ok S0 ∧
          rs = (List.range N).map (fun k => mkTrial S0 initial_value years
            (calculate_statistics (df.filterMap HistRow.ret)).1
            (calculate_statistics (df.filterMap HistRow.ret)).2 (Z k) k)) ∨
        (N = 0 ∧ rs = [])) := by
  unfold run_monte_carloE at h
  cases hload : load_historical_data ticker (db ticker) with
  | error e =>
      rw [hload] at h
      exact Except.noConfusion h
  | ok df =>
      rw [hload] at h
      have h2 : (List.range N).mapM (fun k =>
          Except.bind (simulate_single_pathE db ticker initial_value years
              (calculate_statistics (df.filterMap HistRow.ret)).1
              (calculate_statistics (df.filterMap HistRow.ret)).2 (Z k))
            (fun final_value => Except.ok (⟨k + 1, final_value,
              (final_value - initial_value) / initial_value * 100⟩ :
                SimulationResult))) = .ok rs := h
      refine ⟨df, rfl, ?_⟩
      cases hS0 : get_starting_price ticker (db ticker) with
      | error e =>
          cases N with
          | zero =>
              right
              exact ⟨rfl, (Except.ok.inj h2).symm⟩
          | succ n =>
              exfalso
              rw [List.range_succ_eq_map, mapM_cons_error _ _ _ e
                (by simp [simulate_single_pathE, hS0, Except.bind])] at h2
              exact Except.noConfusion h2
      | ok S0 =>
          left
          refine ⟨S0, rfl, ?_⟩
          rw [mapM_ok_of_forall _
            (fun k => mkTrial S0 initial_value years
              (calculate_statistics (df.filterMap HistRow.ret)).1
              (calculate_statistics (df.filterMap HistRow.ret)).2 (Z k) k)
            (List.range N)
            (fun k _ => by
              simp [simulate_single_pathE, hS0, Except.bind, mkTrial])] at h2
          exact (Except.ok.inj h2).symm

/-- C1: for every trial of the GBM simulator with starting price S0,
allocation A, annualized stats (mu, sigma) and a horizon of years years,
the trial record of a successful run has simulation number k + 1, final
value (A / S0) times the price after exactly years * 252 GBM steps, and
return percent (final - A) / A * 100; the stepped price has the closed
form S0 * exp of the summed increments
(mu - 0.5 sigma^2) dt + sigma sqrt(dt) Z, one fresh draw per step. -/
theorem C1_trial_decomposition (db : String → List HistRow) (ticker : String)
    (A : ℝ) (years N : ℕ) (Z : ℕ → ℕ → ℝ) (rs : List SimulationResult)
    (df : List HistRow) (S0 mu sigma : ℝ)
    (hload : load_historical_data ticker (db ticker) = .ok df)
    (hstats : calculate_statistics (df.filterMap HistRow.ret) = (mu, sigma))
    (hS0 : get_starting_price ticker (db ticker) = .ok S0)
    (hrun : run_monte_carloE db ticker A years N Z = .ok rs)
    (k : ℕ) (hk : k < rs.length) :
    rs.get ⟨k, hk⟩ =
      ⟨k + 1,
       (A / S0) * gbm_price S0 mu sigma (Z k) (years * TRADING_DAYS_PER_YEAR),
       ((A / S0) * gbm_price S0 mu sigma (Z k) (years * TRADING_DAYS_PER_YEAR)
          - A) / A * 100⟩ ∧
    gbm_price S0 mu sigma (Z k) (years * TRADING_DAYS_PER_YEAR) =
      S0 * Real.exp (∑ j ∈ Finset.range (years * TRADING_DAYS_PER_YEAR),
        ((mu - 0.5 * sigma ^ 2) * dt + sigma * Real.sqrt dt * Z k j)) := by
  obtain ⟨df2, hload2, hrest⟩ := run_monte_carloE_ok db ticker A years N Z rs hrun
  rw [hload] at hload2
  have hdf : df = df2 := Except.ok.inj hload2
  subst hdf
  refine ⟨?_, gbm_price_closed S0 mu sigma (Z k) (years * TRADING_DAYS_PER_YEAR)⟩
  rcases hrest with ⟨S02, hS02, hrs⟩ | ⟨hN, hrs⟩
  · rw [hS0] at hS02
    have hS : S0 = S02 := Except.ok.inj hS02
    subst hS
    subst hrs
    have hk2 : k < N := by simpa using hk
    have hget : ((List.range N).map (fun k => mkTrial S0 A years
        (calculate_statistics (df.filterMap HistRow.ret)).1
        (calculate_statistics (df.filterMap HistRow.ret)).2 (Z k) k)).get ⟨k, hk⟩ =
        mkTrial S0 A years
          (calculate_statistics (df.filterMap HistRow.ret)).1
          (calculate_statistics (df.filterMap HistRow.ret)).2 (Z k) k := by
      simp
    rw [hget, hstats]
    rfl
  · exfalso
    subst hrs
    exact absurd hk (by simp)

/-- C1 witness: a concrete one-trial zero-horizon run over a one-row
database, decomposed by the C1 theorem. -/
theorem C1_trial_decomposition_witness :
    run_monte_carloE wDb "T" 5 0 1 wZ2 = .ok wRs ∧
    wRs.get ⟨0, by decide⟩ =
      ⟨1, (5 / 100) * gbm_price 100 wMu wSigma (wZ2 0) (0 * TRADING_DAYS_PER_YEAR),
       ((5 / 100) * gbm_price 100 wMu wSigma (wZ2 0) (0 * TRADING_DAYS_PER_YEAR)
          - 5) / 5 * 100⟩ ∧
    gbm_price 100 wMu wSigma (wZ2 0) (0 * TRADING_DAYS_PER_YEAR) =
      100 * Real.exp (∑ j ∈ Finset.range (0 * TRADING_DAYS_PER_YEAR),
        ((wMu - 0.5 * wSigma ^ 2) * dt + wSigma * Real.sqrt dt * wZ2 0 j)) := by
  have hrun : run_monte_carloE wDb "T" 5 0 1 wZ2 = .ok wRs := by rfl
  have hmain := C1_trial_decomposition wDb "T" 5 0 1 wZ2 wRs [wRow] 100 wMu wSigma
    (by rfl) (by rfl) (by rfl) hrun 0 (by decide)
  exact ⟨hrun, hmain.1, hmain.2⟩

/-- C9: the result list of a successful run_monte_carlo call for trial
count N has exactly N entries whose simulation numbers are exactly the
contiguous range 1..N, with no gaps and no duplicates, for every N. -/
theorem C9_trial_indices (db : String → List HistRow) (ticker : String)
    (initial_value : ℝ) (years N : ℕ) (Z : ℕ → ℕ → ℝ)
    (rs : List SimulationResult)
    (h : run_monte_carloE db ticker initial_value years N Z = .ok rs) :
    rs.map SimulationResult.simulation_number = List.range' 1 N ∧
    rs.length = N := by
  obtain ⟨df, hload, hrest⟩ :=
    run_monte_carloE_ok db ticker initial_value years N Z rs h
  rcases hrest with ⟨S0, hS0, hrs⟩ | ⟨hN, hrs⟩
  · subst hrs
    constructor
    · rw [List.map_map, List.range'_eq_map_range]
      refine List.map_congr_left (fun k _ => ?_)
      simp [mkTrial]
      omega
    · simp
  · subst hN
    subst hrs
    simp

/-- C9 witness: the concrete one-trial run has trial indices exactly
range 1..1 and length 1. -/
theorem C9_trial_indices_witness :
    run_monte_carloE wDb "T" 5 0 1 wZ2 = .ok wRs ∧
    wRs.map SimulationResult.simulation_number = List.range' 1 1 ∧
    wRs.length = 1 := by
  have hrun : run_monte_carloE wDb "T" 5 0 1 wZ2 = .ok wRs := by rfl
  have h := C9_trial_indices wDb "T" 5 0 1 wZ2 wRs hrun
  exact ⟨hrun, h.1, h.2⟩

/-- C6: with sigma = 0 the simulator is deterministic, the final price is
starting price times exp(mu dt steps) whatever the draws are; with
additionally mu = 0 the terminal value equals the initial allocation
exactly, for any horizon, provided the starting price is nonzero. -/
theorem C6_sigma_zero_deterministic (S0 A : ℝ) (years : ℕ) (mu : ℝ)
    (Z : ℕ → ℝ) (hS0 : S0 ≠ 0) :
    simulate_single_path S0 A years mu 0 Z =
      (A / S0) * (S0 * Real.exp (mu * dt *
        ((years * TRADING_DAYS_PER_YEAR : ℕ) : ℝ))) ∧
    simulate_single_path S0 A years 0 0 Z = A := by
  have hbase : ∀ m : ℝ, gbm_price S0 m 0 Z (years * TRADING_DAYS_PER_YEAR) =
      S0 * Real.exp (m * dt * ((years * TRADING_DAYS_PER_YEAR : ℕ) : ℝ)) := by
    intro m
    rw [gbm_price_closed]
    congr 1
    have hterm : ∀ j ∈ Finset.range (years * TRADING_DAYS_PER_YEAR),
        ((m - 0.5 * (0 : ℝ) ^ 2) * dt + 0 * Real.sqrt dt * Z j) = m * dt := by
      intro j _
      ring
    rw [Finset.sum_congr rfl hterm, Finset.sum_const, Finset.card_range,
      nsmul_eq_mul]
    ring_nf
  constructor
  · rw [simulate_single_path, hbase mu]
  · rw [simulate_single_path, hbase 0]
    simp [div_mul_cancel₀, hS0]

/-- C3: for every family of per-ticker result lists and every trial index
i in 1..N, the portfolio entry at that index has terminal value equal to
the sum over tickers of the first matching result (a ticker without a row
for that index contributing exactly 0 through the trialValue fallback),
and return percent (terminal - sum of configured allocations) / (sum of
configured allocations) * 100. -/
theorem C3_portfolio_sum (ticker_results : List (String × List SimulationResult))
    (portfolio_dict : List (String × ℝ)) (N i : ℕ)
    (h1 : 1 ≤ i) (h2 : i ≤ N) :
    (combine_portfolio ticker_results ((portfolio_dict.map Prod.snd).sum) N).get?
        (i - 1) =
      some ⟨i, (ticker_results.map (fun tr => trialValue tr.2 i)).sum,
        ((ticker_results.map (fun tr => trialValue tr.2 i)).sum -
          (portfolio_dict.map Prod.snd).sum) /
          (portfolio_dict.map Prod.snd).sum * 100⟩ := by
  have hi : i - 1 < N := by omega
  have hii : i - 1 + 1 = i := by omega
  have hfold := foldl_add_eq_sum
    (fun tr : String × List SimulationResult => trialValue tr.2 i) ticker_results 0
  rw [zero_add] at hfold
  unfold combine_portfolio
  rw [List.get?_map, List.get?_range hi, Option.map_some', hii, hfold]

/-- C3 witness: a two-ticker family where the second ticker is missing
trial 1, aggregated at index 1 of a one-trial run. -/
theorem C3_portfolio_sum_witness :
    (1 : ℕ) ≤ 1 ∧
    (combine_portfolio wTickerResults ((wPortfolio.map Prod.snd).sum) 1).get? 0 =
      some ⟨1, (wTickerResults.map (fun tr => trialValue tr.2 1)).sum,
        ((wTickerResults.map (fun tr => trialValue tr.2 1)).sum -
          (wPortfolio.map Prod.snd).sum) / (wPortfolio.map Prod.snd).sum * 100⟩ :=
  ⟨le_refl 1, C3_portfolio_sum wTickerResults wPortfolio 1 1 (le_refl 1) (le_refl 1)⟩

/-- C5 counterexample: a one-row history whose stored return column is
entirely NaN becomes empty after return derivation, yet
load_historical_data returns the empty sequence as a value instead of
failing with the no-historical-data error, refuting the claim that an
empty-after-derivation sequence fails. -/
theorem C5_counterexample : load_historical_data "AAPL" [wRowN] = .ok [] := by
  rfl

/-- C5 (amended): the estimator returns the pair (mean of daily returns
times 252, sample standard deviation of daily returns times sqrt 252);
the loader fails with the no-historical-data error exactly on an input
that is empty before derivation, and returns a value (possibly the empty
sequence) on every nonempty input. -/
theorem C5_annualized_stats (xs : List ℝ) (rows : List HistRow) (t : String)
    (hxs : xs ≠ []) (hrows : rows ≠ []) :
    calculate_statistics xs =
      (xs.sum / xs.length * 252,
       Real.sqrt ((xs.map (fun x => (x - xs.sum / xs.length) ^ 2)).sum /
         ((xs.length - 1 : ℕ) : ℝ)) * Real.sqrt 252) ∧
    load_historical_data t [] = .error s!"No historical data found for {t}" ∧
    exceptIsOk (load_historical_data t rows) = true := by
  refine ⟨?_, ?_, ?_⟩
  · simp only [calculate_statistics, listMean, listSampleStd, listSampleVar,
      TRADING_DAYS_PER_YEAR]
    norm_num
  · rfl
  · cases rows with
    | nil => exact absurd rfl hrows
    | cons r rest =>
        cases h : (r :: rest).all (fun x => x.ret.isNone) <;>
          simp [load_historical_data, h, exceptIsOk]

/-- C5 witness: the amended statement at the singleton return sequence
and a nonempty one-row history. -/
theorem C5_annualized_stats_witness :
    ([(1 : ℝ)] ≠ []) ∧ ([wRow] ≠ []) ∧
    calculate_statistics [(1 : ℝ)] =
      ([(1 : ℝ)].sum / [(1 : ℝ)].length * 252,
       Real.sqrt (([(1 : ℝ)].map
         (fun x => (x - [(1 : ℝ)].sum / [(1 : ℝ)].length) ^ 2)).sum /
         (([(1 : ℝ)].length - 1 : ℕ) : ℝ)) * Real.sqrt 252) ∧
    load_historical_data "T" [] = .error "No historical data found for T" ∧
    exceptIsOk (load_historical_data "T" [wRow]) = true := by
  have h := C5_annualized_stats [(1 : ℝ)] [wRow] "T" (by simp) (by simp)
  exact ⟨by simp, by simp, h.1, h.2.1, h.2.2⟩

/-- C8 counterexample: in the simulation layer a batch whose first ticker
is healthy and whose second ticker has no data does not partially
succeed; the whole portfolio call aborts with the failing ticker error,
refuting the claim that one ticker failure never aborts its siblings. -/
theorem C8_counterexample :
    simulate_portfolioE wDbA [("AAPL", 5), ("MISSING", 5)] 0 1 wZ3 =
      .error "No historical data found for MISSING" := by
  rfl

/-- C8 (corrected): per-ticker failures are caught and skipped only in
the ETL transform layer, where the batch total is the sum of the
successful ticker contributions with failed tickers contributing 0; in
the simulation layer a failing ticker aborts the whole portfolio batch
with its error, so its sibling tickers are not processed. -/
theorem C8_failure_isolation (f : String → Except String ℕ)
    (tickers : List String) (db : String → List HistRow)
    (p1 p2 : List (String × ℝ)) (t : String) (a : ℝ) (years N : ℕ)
    (Z : String → ℕ → ℕ → ℝ) (e : String)
    (hok : ∀ ta ∈ p1, ∃ rs,
      run_monte_carloE db ta.1 ta.2 years N (Z ta.1) = .ok rs)
    (herr : run_monte_carloE db t a years N (Z t) = .error e) :
    transform_all_tickers f tickers =
      (tickers.map (fun s => match f s with
        | .ok rows => rows
        | .error _ => 0)).sum ∧
    simulate_portfolioE db (p1 ++ (t, a) :: p2) years N Z = .error e := by
  constructor
  · unfold transform_all_tickers
    have hstep : (fun (total_rows : ℕ) (s : String) =>
        match f s with
        | .ok rows => total_rows + rows
        | .error _ => total_rows) =
        (fun (total_rows : ℕ) (s : String) => total_rows +
          match f s with | .ok rows => rows | .error _ => 0) := by
      funext tot s
      cases f s <;> simp
    rw [hstep]
    have h2 := foldl_add_eq_sum (fun s => match f s with
      | .ok rows => rows | .error _ => 0) tickers 0
    rw [zero_add] at h2
    exact h2
  · unfold simulate_portfolioE
    rw [mapM_append_error _ p1 (t, a) p2 e
      (fun ta hta => by
        obtain ⟨rs, hrs⟩ := hok ta hta
        refine ⟨(ta.1, rs), ?_⟩
        show Except.bind (run_monte_carloE db ta.1 ta.2 years N (Z ta.1))
          (fun results_df => Except.ok (ta.1, results_df)) = Except.ok (ta.1, rs)
        rw [hrs]
        rfl)
      (by
        show Except.bind (run_monte_carloE db t a years N (Z t))
          (fun results_df => Except.ok ((t, a).1, results_df)) = Except.error e
        rw [herr]
        rfl)]
    rfl

/-- C8 witness: a concrete failing ticker aborts a one-element portfolio
batch in the simulation layer, while the ETL layer total over a batch
with one failing ticker is the sum over the successes. -/
theorem C8_failure_isolation_witness :
    run_monte_carloE wDbEmpty "T" 5 0 1 (wZ3 "T") =
      .error "No historical data found for T" ∧
    transform_all_tickers wF ["A", "B"] =
      ((["A", "B"]).map (fun s => match wF s with
        | .ok rows => rows
        | .error _ => 0)).sum ∧
    simulate_portfolioE wDbEmpty [("T", 5)] 0 1 wZ3 =
      .error "No historical data found for T" := by
  have herr : run_monte_carloE wDbEmpty "T" 5 0 1 (wZ3 "T") =
      .error "No historical data found for T" := by rfl
  have h := C8_failure_isolation wF ["A", "B"] wDbEmpty [] [] "T" 5 0 1 wZ3
    "No historical data found for T" (by simp) herr
  exact ⟨herr, h.1, h.2⟩

/-- C6 witness: concrete degenerate-volatility runs with starting price
2, allocation 7 and a one-year horizon. -/
theorem C6_sigma_zero_deterministic_witness :
    (2 : ℝ) ≠ 0 ∧
    (simulate_single_path 2 7 1 3 0 (fun _ => 0) =
      (7 / 2) * (2 * Real.exp (3 * dt *
        ((1 * TRADING_DAYS_PER_YEAR : ℕ) : ℝ))) ∧
     simulate_single_path 2 7 1 0 0 (fun _ => 0) = 7) :=
  ⟨by norm_num, C6_sigma_zero_deterministic 2 7 1 3 (fun _ => 0) (by norm_num)⟩

/- The ewm weight denominator is at least 1 once an observation exists. -/
theorem ewm_den_ge_one (w : ℝ) (hw : 0 ≤ w) (i : ℕ) (hi : 1 ≤ i) :
    1 ≤ ∑ j ∈ Finset.Icc 1 i, w ^ (i - j) := by
  have hmem : i ∈ Finset.Icc 1 i := by simp [hi]
  have hterm : w ^ (i - i) = 1 := by simp
  calc (1 : ℝ) = w ^ (i - i) := hterm.symm
    _ ≤ ∑ j ∈ Finset.Icc 1 i, w ^ (i - j) :=
        Finset.single_le_sum (fun j _ => pow_nonneg hw _) hmem

/- The ewm mean of a nonnegative series is nonnegative. -/
theorem ewm_mean_nonneg (x : ℕ → ℝ) (alpha : ℝ) (i : ℕ)
    (hw : 0 ≤ 1 - alpha) (hx : ∀ j, 0 ≤ x j) : 0 ≤ ewm_mean x alpha i := by
  unfold ewm_mean
  apply div_nonneg
  · exact Finset.sum_nonneg (fun j _ => mul_nonneg (pow_nonneg hw _) (hx j))
  · exact Finset.sum_nonneg (fun j _ => pow_nonneg hw _)

/- The ewm mean of a nonnegative series vanishes exactly when every
   weighted observation vanishes. -/
theorem ewm_mean_eq_zero_iff (x : ℕ → ℝ) (alpha : ℝ) (i : ℕ)
    (hw : 0 < 1 - alpha) (hx : ∀ j, 0 ≤ x j) (hi : 1 ≤ i) :
    ewm_mean x alpha i = 0 ↔ ∀ j ∈ Finset.Icc 1 i, x j = 0 := by
  unfold ewm_mean
  have hden : 0 < ∑ j ∈ Finset.Icc 1 i, (1 - alpha) ^ (i - j) :=
    lt_of_lt_of_le one_pos (ewm_den_ge_one _ hw.le i hi)
  rw [div_eq_zero_iff]
  constructor
  · rintro (hnum | hden0)
    · intro j hj
      have hz := (Finset.sum_eq_zero_iff_of_nonneg
        (fun j _ => mul_nonneg (pow_nonneg hw.le _) (hx j))).1 hnum j hj
      rcases mul_eq_zero.1 hz with hp | hxj
      · exact absurd hp (ne_of_gt (pow_pos hw _))
      · exact hxj
    · exact absurd hden0 (ne_of_gt hden)
  · intro hall
    left
    exact Finset.sum_eq_zero (fun j hj => by rw [hall j hj, mul_zero])

/-- C4: whenever compute_rsi produces a defined value it lies in the
closed interval [0, 100], for every close sequence, period and position;
and when the smoothed loss vanishes while the smoothed gain does not
(gains without losses), the produced value is exactly 100. -/
theorem C4_rsi_range (close : ℕ → ℝ) (period i : ℕ) (v : ℝ)
    (h : compute_rsi close period i = some v) :
    0 ≤ v ∧ v ≤ 100 ∧
    (ewm_mean (lossAt close) (1 / (period : ℝ)) i = 0 → v = 100) := by
  unfold compute_rsi at h
  by_cases hip : i < period
  · rw [if_pos hip] at h
    exact Option.noConfusion h
  rw [if_neg hip] at h
  by_cases hz : ewm_mean (gainAt close) (1 / (period : ℝ)) i = 0 ∧
      ewm_mean (lossAt close) (1 / (period : ℝ)) i = 0
  · rw [if_pos hz] at h
    exact Option.noConfusion h
  rw [if_neg hz] at h
  by_cases hl : ewm_mean (lossAt close) (1 / (period : ℝ)) i = 0
  · rw [if_pos hl] at h
    have hv : v = 100 := (Option.some.inj h).symm
    subst hv
    exact ⟨by norm_num, le_refl 100, fun _ => rfl⟩
  · rw [if_neg hl] at h
    have hv : v = 100 - 100 / (1 +
        ewm_mean (gainAt close) (1 / (period : ℝ)) i /
          ewm_mean (lossAt close) (1 / (period : ℝ)) i) :=
      (Option.some.inj h).symm
    have hw : 0 ≤ 1 - 1 / (period : ℝ) := by
      rcases Nat.eq_zero_or_pos period with h0 | hp
      · norm_num [h0]
      · have h1 : (1 : ℝ) ≤ period := by exact_mod_cast hp
        have hppos : (0 : ℝ) < period := by linarith
        have h2 : 1 / (period : ℝ) ≤ 1 := by
          rw [div_le_one hppos]
          exact h1
        linarith
    have hgn : 0 ≤ ewm_mean (gainAt close) (1 / (period : ℝ)) i :=
      ewm_mean_nonneg _ _ _ hw (fun j => le_max_right _ _)
    have hln : 0 ≤ ewm_mean (lossAt close) (1 / (period : ℝ)) i :=
      ewm_mean_nonneg _ _ _ hw (fun j => le_max_right _ _)
    have hrs : 0 ≤ ewm_mean (gainAt close) (1 / (period : ℝ)) i /
        ewm_mean (lossAt close) (1 / (period : ℝ)) i :=
      div_nonneg hgn hln
    have h1 : (0 : ℝ) < 1 + ewm_mean (gainAt close) (1 / (period : ℝ)) i /
        ewm_mean (lossAt close) (1 / (period : ℝ)) i := by linarith
    have h2 : 100 / (1 + ewm_mean (gainAt close) (1 / (period : ℝ)) i /
        ewm_mean (lossAt close) (1 / (period : ℝ)) i) ≤ 100 := by
      rw [div_le_iff h1]
      nlinarith
    have h3 : 0 < 100 / (1 + ewm_mean (gainAt close) (1 / (period : ℝ)) i /
        ewm_mean (lossAt close) (1 / (period : ℝ)) i) := by positivity
    subst hv
    exact ⟨by linarith, by linarith, fun hc => absurd hc hl⟩

/-- C4 witness: a two-point strictly rising close sequence with period 1
at position 1 produces RSI exactly 100, inside [0, 100]. -/
theorem C4_rsi_range_witness :
    compute_rsi (fun j => if j = 0 then (1 : ℝ) else 2) 1 1 = some 100 ∧
    (0 : ℝ) ≤ 100 ∧ (100 : ℝ) ≤ 100 := by
  have hgain : ewm_mean (gainAt (fun j => if j = 0 then (1 : ℝ) else 2))
      (1 / ((1 : ℕ) : ℝ)) 1 = 1 := by
    simp [ewm_mean, Finset.Icc_self, Finset.sum_singleton, gainAt, deltaAt]
    norm_num
  have hloss : ewm_mean (lossAt (fun j => if j = 0 then (1 : ℝ) else 2))
      (1 / ((1 : ℕ) : ℝ)) 1 = 0 := by
    simp [ewm_mean, Finset.Icc_self, Finset.sum_singleton, lossAt, deltaAt]
  have hsome : compute_rsi (fun j => if j = 0 then (1 : ℝ) else 2) 1 1 =
      some 100 := by
    unfold compute_rsi
    rw [if_neg (by omega), if_neg (by rw [hgain, hloss]; norm_num),
      if_pos hloss]
  have h := C4_rsi_range (fun j => if j = 0 then (1 : ℝ) else 2) 1 1 100 hsome
  exact ⟨hsome, h.1, h.2.1⟩

/- Over a flat close sequence the smoothed gain and loss both vanish. -/
theorem ewm_flat_zero (close : ℕ → ℝ) (alpha : ℝ) (i : ℕ)
    (hflat : ∀ j, 1 ≤ j → j ≤ i → close j = close (j - 1)) :
    ewm_mean (gainAt close) alpha i = 0 ∧
    ewm_mean (lossAt close) alpha i = 0 := by
  constructor <;>
  · unfold ewm_mean
    rw [Finset.sum_eq_zero, zero_div]
    intro j hj
    rcases Finset.mem_Icc.1 hj with ⟨hj1, hj2⟩
    simp [gainAt, lossAt, deltaAt, hflat j hj1 hj2]

/- compute_rsi is NaN at every position over a flat close sequence: the
   0/0 ratio case, or the warm-up case before that. -/
theorem compute_rsi_flat_none (close : ℕ → ℝ) (p i : ℕ)
    (hflat : ∀ j, 1 ≤ j → j ≤ i → close j = close (j - 1)) :
    compute_rsi close p i = none := by
  unfold compute_rsi
  by_cases hip : i < p
  · rw [if_pos hip]
  · have hz := ewm_flat_zero close (1 / (p : ℝ)) i hflat
    rw [if_neg hip, if_pos ⟨hz.1, hz.2⟩]

/- engineer_features of a flat-close input is empty: every row has an
   undefined rsi14 cell and is removed by the dropna. -/
theorem engineer_features_flat (bars : List Bar)
    (hflat : ∀ i, i < bars.length → closeAt bars i = closeAt bars 0) :
    engineer_features bars = [] := by
  unfold engineer_features
  rw [List.filter_eq_nil_iff]
  intro r hr
  obtain ⟨i, hi, hri⟩ := List.mem_map.1 hr
  have hin : i < bars.length := List.mem_range.1 hi
  subst hri
  have hnone : compute_rsi (closeAt bars) 14 i = none := by
    apply compute_rsi_flat_none
    intro j hj1 hj2
    have hjn : j < bars.length := lt_of_le_of_lt hj2 hin
    rw [hflat j hjn, hflat (j - 1) (by omega)]
  simp [rowDefined, mkRow, hnone]

/- The close series of the flat 200-bar input is the constant 100. -/
theorem closeAt_flat200 (i : ℕ) (hi : i < 200) : closeAt flat200 i = 100 := by
  have h : barAt flat200 i = flatBar := by
    unfold barAt flat200
    rw [List.getD_eq_getElem?_getD, List.getElem?_replicate, if_pos hi]
    rfl
  rw [closeAt, h]
  rfl

/-- C10: for every input whose close prices are all equal, the smoothed
average gain and average loss are both zero at every in-range position,
so the RS ratio is 0/0 and RSI is undefined (NaN) at every in-range
position for every period, and engineer_features returns the empty
sequence regardless of the input length. -/
theorem C10_flat_rsi_undefined (bars : List Bar)
    (hflat : ∀ i, i < bars.length → closeAt bars i = closeAt bars 0) :
    (∀ (p i : ℕ), 1 ≤ i → i < bars.length →
      ewm_mean (gainAt (closeAt bars)) (1 / (p : ℝ)) i = 0 ∧
      ewm_mean (lossAt (closeAt bars)) (1 / (p : ℝ)) i = 0) ∧
    (∀ (p i : ℕ), i < bars.length → compute_rsi (closeAt bars) p i = none) ∧
    engineer_features bars = [] := by
  have hpair : ∀ i, i < bars.length → ∀ j, 1 ≤ j → j ≤ i →
      closeAt bars j = closeAt bars (j - 1) := by
    intro i hin j hj1 hj2
    rw [hflat j (lt_of_le_of_lt hj2 hin), hflat (j - 1) (by omega)]
  refine ⟨?_, ?_, engineer_features_flat bars hflat⟩
  · intro p i _ hin
    exact ewm_flat_zero (closeAt bars) (1 / (p : ℝ)) i (hpair i hin)
  · intro p i hin
    exact compute_rsi_flat_none (closeAt bars) p i (hpair i hin)

/-- C10 witness: the 200-row flat-price input has zero smoothed gain and
loss and undefined RSI at position 199, and empty transform output. -/
theorem C10_flat_rsi_undefined_witness :
    ewm_mean (gainAt (closeAt flat200)) (1 / ((14 : ℕ) : ℝ)) 199 = 0 ∧
    compute_rsi (closeAt flat200) 14 199 = none ∧
    engineer_features flat200 = [] := by
  have hlen : flat200.length = 200 := by
    simp only [flat200, List.length_replicate]
  have hflat : ∀ i, i < flat200.length →
      closeAt flat200 i = closeAt flat200 0 := by
    intro i hi
    rw [closeAt_flat200 i (by omega), closeAt_flat200 0 (by norm_num)]
  have h := C10_flat_rsi_undefined flat200 hflat
  exact ⟨(h.1 14 199 (by norm_num) (by omega)).1, h.2.1 14 199 (by omega),
    h.2.2⟩

/-- C2 counterexample: two hundred flat bars form an accepted input of
length 200, where the claimed count formula predicts 200 - 199 = 1 output
row, yet the transform output is empty because every RSI cell is NaN. -/
theorem C2_counterexample :
    (engineer_features flat200).length ≠ flat200.length - 199 := by
  have hlen : flat200.length = 200 := by
    simp only [flat200, List.length_replicate]
  have hflat : ∀ i, i < flat200.length →
      closeAt flat200 i = closeAt flat200 0 := by
    intro i hi
    rw [closeAt_flat200 i (by omega), closeAt_flat200 0 (by norm_num)]
  rw [engineer_features_flat flat200 hflat, hlen]
  simp

/- A percent change with a nonzero previous value is never NaN. -/
theorem pctChangeF_isSome (prev curr : ℝ) (h : prev ≠ 0) :
    (pctChangeF prev curr).isSome = true := by
  rw [pctChangeF, if_neg]
  · rfl
  · rintro ⟨h0, _⟩
    exact h h0

/- compute_rsi is defined at position i once the warm-up is over and some
   close in 1..i differs from its predecessor. -/
theorem compute_rsi_isSome (close : ℕ → ℝ) (p i : ℕ) (hp : 2 ≤ p)
    (hip : p ≤ i)
    (hnz : ∃ j, 1 ≤ j ∧ j ≤ i ∧ close j ≠ close (j - 1)) :
    (compute_rsi close p i).isSome = true := by
  have hi1 : 1 ≤ i := by omega
  have hw : 0 < 1 - 1 / (p : ℝ) := by
    have h2 : (2 : ℝ) ≤ p := by exact_mod_cast hp
    have hp0 : (0 : ℝ) < p := by linarith
    rw [sub_pos, div_lt_one hp0]
    linarith
  have hno : ¬ (ewm_mean (gainAt close) (1 / (p : ℝ)) i = 0 ∧
      ewm_mean (lossAt close) (1 / (p : ℝ)) i = 0) := by
    rintro ⟨hg, hl⟩
    obtain ⟨j, hj1, hj2, hjne⟩ := hnz
    have hmem : j ∈ Finset.Icc 1 i := Finset.mem_Icc.2 ⟨hj1, hj2⟩
    have hgz := (ewm_mean_eq_zero_iff (gainAt close) (1 / (p : ℝ)) i hw
      (fun j => le_max_right _ _) hi1).1 hg j hmem
    have hlz := (ewm_mean_eq_zero_iff (lossAt close) (1 / (p : ℝ)) i hw
      (fun j => le_max_right _ _) hi1).1 hl j hmem
    rw [gainAt] at hgz
    rw [lossAt] at hlz
    have hle1 := le_max_left (deltaAt close j) 0
    have hle2 := le_max_left (-(deltaAt close j)) 0
    rw [hgz] at hle1
    rw [hlz] at hle2
    have hd0 : deltaAt close j = 0 := by linarith
    rw [deltaAt, sub_eq_zero] at hd0
    exact hjne hd0
  unfold compute_rsi
  rw [if_neg (by omega : ¬ i < p), if_neg hno]
  by_cases hl : ewm_mean (lossAt close) (1 / (p : ℝ)) i = 0
  · rw [if_pos hl]
    rfl
  · rw [if_neg hl]
    rfl

/- Every derived value of the row at a position at or beyond the 200-row
   warm-up is defined, for positive closes and volumes and at least one
   price move within the first 200 rows. -/
theorem rowDefined_of_ge (bars : List Bar) (i : ℕ)
    (hin : i < bars.length) (hi : 199 ≤ i)
    (hc : ∀ j, j < bars.length → 0 < closeAt bars j)
    (hv : ∀ j, j < bars.length → 0 < volumeAt bars j)
    (hnz : ∃ j, 1 ≤ j ∧ j ≤ 199 ∧ j < bars.length ∧
      closeAt bars j ≠ closeAt bars (j - 1)) :
    rowDefined (mkRow bars i) = true := by
  have hvc : (volume_changeF bars i).isSome = true := by
    rw [volume_changeF, if_pos (by omega : 1 ≤ i)]
    exact pctChangeF_isSome _ _ (ne_of_gt (hv (i - 1) (by omega)))
  have hl1 : (close_lag bars 1 i).isSome = true := by
    rw [close_lag, if_pos (by omega : 1 ≤ i)]
    rfl
  have hl2 : (close_lag bars 2 i).isSome = true := by
    rw [close_lag, if_pos (by omega : 2 ≤ i)]
    rfl
  have hret : (returnF bars i).isSome = true := by
    rw [returnF, if_pos (by omega : 1 ≤ i)]
    exact pctChangeF_isSome _ _ (ne_of_gt (hc (i - 1) (by omega)))
  have hretl : (return_lag_1F bars i).isSome = true := by
    rw [return_lag_1F, if_pos (by omega : 1 ≤ i), returnF,
      if_pos (by omega : 1 ≤ i - 1)]
    exact pctChangeF_isSome _ _ (ne_of_gt (hc (i - 1 - 1) (by omega)))
  have hrm7 : (rolling_meanF bars 7 i).isSome = true := by
    rw [rolling_meanF, if_pos (by omega : 7 ≤ i + 1)]
    rfl
  have hrs7 : (rolling_stdF bars 7 i).isSome = true := by
    rw [rolling_stdF, if_pos (by omega : 7 ≤ i + 1)]
    rfl
  have hrm30 : (rolling_meanF bars 30 i).isSome = true := by
    rw [rolling_meanF, if_pos (by omega : 30 ≤ i + 1)]
    rfl
  have hrs30 : (rolling_stdF bars 30 i).isSome = true := by
    rw [rolling_stdF, if_pos (by omega : 30 ≤ i + 1)]
    rfl
  have hma14 : (maF bars 14 i).isSome = true := by
    rw [maF, if_pos (by omega : 14 ≤ i + 1)]
    rfl
  have hma30 : (maF bars 30 i).isSome = true := by
    rw [maF, if_pos (by omega : 30 ≤ i + 1)]
    rfl
  have hma50 : (maF bars 50 i).isSome = true := by
    rw [maF, if_pos (by omega : 50 ≤ i + 1)]
    rfl
  have hma200 : (maF bars 200 i).isSome = true := by
    rw [maF, if_pos (by omega : 200 ≤ i + 1)]
    rfl
  have hrsi : ∀ p, 2 ≤ p → p ≤ i →
      (compute_rsi (closeAt bars) p i).isSome = true := by
    intro p hp hpi
    apply compute_rsi_isSome _ _ _ hp hpi
    obtain ⟨j, hj1, hj2, hjn, hjne⟩ := hnz
    exact ⟨j, hj1, by omega, hjne⟩
  have hroc : (roc14F bars i).isSome = true := by
    rw [roc14F, if_pos (by omega : 14 ≤ i)]
    exact pctChangeF_isSome _ _ (ne_of_gt (hc (i - 14) (by omega)))
  have hvol : (vol14F bars i).isSome = true := by
    rw [vol14F, if_pos (by omega : 14 ≤ i)]
    rfl
  simp [rowDefined, mkRow, hvc, hl1, hl2, hret, hretl, hrm7, hrs7,
    hrm30, hrs30, hma14, hma30, hma50, hma200,
    hrsi 14 (by norm_num) (by omega), hrsi 30 (by norm_num) (by omega),
    hrsi 50 (by norm_num) (by omega), hroc, hvol]

/- Before position 199 the 200-row moving average is undefined, so the
   row is dropped. -/
theorem rowDefined_of_lt (bars : List Bar) (i : ℕ) (hi : i < 199) :
    rowDefined (mkRow bars i) = false := by
  have hma : (maF bars 200 i).isSome = false := by
    rw [maF, if_neg (by omega : ¬ 200 ≤ i + 1)]
    rfl
  simp [rowDefined, mkRow, hma]

/- Filtering a mapped list is mapping the filtered preimages. -/
theorem filter_of_map {α β : Type} (l : List α) (f : α → β) (p : β → Bool) :
    (l.map f).filter p = (l.filter (fun a => p (f a))).map f := by
  induction l with
  | nil => rfl
  | cons x xs ih => cases hp : p (f x) <;> simp [List.filter_cons, hp, ih]

/- Counting the positions at or beyond m among 0..n-1. -/
theorem length_filter_range_ge (n m : ℕ) :
    ((List.range n).filter (fun i => m ≤ i)).length = n - m := by
  induction n with
  | zero => simp
  | succ n ih =>
      rw [List.range_succ, List.filter_append, List.length_append, ih]
      by_cases h : m ≤ n
      · rw [show List.filter (fun i => m ≤ i) [n] = [n] by simp [h]]
        simp only [List.length_cons, List.length_nil]
        omega
      · rw [show List.filter (fun i => m ≤ i) [n] = [] by simp [h]]
        simp only [List.length_nil]
        omega

/-- C2 (corrected): for every accepted input whose closes and volumes are
positive and whose close price moves at least once within the first 200
rows, the transform output is exactly the fully derived rows at positions
199..n-1 in input order, its length is n - 199 (natural subtraction), and
no output row has an undefined rolling or lag value.  Without the
price-move condition the output can be empty even for n at least 200; see
the counterexample and C10. -/
theorem C2_feature_row_count (bars : List Bar)
    (hc : ∀ j, j < bars.length → 0 < closeAt bars j)
    (hv : ∀ j, j < bars.length → 0 < volumeAt bars j)
    (hnz : ∃ j, 1 ≤ j ∧ j ≤ 199 ∧ j < bars.length ∧
      closeAt bars j ≠ closeAt bars (j - 1)) :
    engineer_features bars =
      ((List.range bars.length).filter (fun i => 199 ≤ i)).map (mkRow bars) ∧
    (engineer_features bars).length = bars.length - 199 ∧
    ∀ r ∈ engineer_features bars, rowDefined r = true := by
  have hmain : engineer_features bars =
      ((List.range bars.length).filter (fun i => 199 ≤ i)).map
        (mkRow bars) := by
    unfold engineer_features
    rw [filter_of_map]
    congr 1
    apply List.filter_congr
    intro i hi
    have hin : i < bars.length := List.mem_range.1 hi
    by_cases h199 : 199 ≤ i
    · rw [rowDefined_of_ge bars i hin h199 hc hv hnz]
      simp [h199]
    · rw [rowDefined_of_lt bars i (by omega)]
      simp [h199]
  refine ⟨hmain, ?_, ?_⟩
  · rw [hmain, List.length_map, length_filter_range_ge]
  · intro r hr
    unfold engineer_features at hr
    exact (List.mem_filter.1 hr).2

/-- C2 witness: a two-bar input with positive closes and volumes and one
price move; the amended formula gives the empty output, 2 - 199 = 0. -/
theorem C2_feature_row_count_witness :
    engineer_features wBars2 =
      ((List.range wBars2.length).filter (fun i => 199 ≤ i)).map
        (mkRow wBars2) ∧
    (engineer_features wBars2).length = wBars2.length - 199 := by
  have hlen : wBars2.length = 2 := rfl
  have hc : ∀ j, j < wBars2.length → 0 < closeAt wBars2 j := by
    intro j hj
    rw [hlen] at hj
    interval_cases j <;>
      norm_num [closeAt, barAt, wBars2, List.getD_cons_zero,
        List.getD_cons_succ]
  have hv : ∀ j, j < wBars2.length → 0 < volumeAt wBars2 j := by
    intro j hj
    rw [hlen] at hj
    interval_cases j <;>
      norm_num [volumeAt, barAt, wBars2, List.getD_cons_zero,
        List.getD_cons_succ]
  have hnz : ∃ j, 1 ≤ j ∧ j ≤ 199 ∧ j < wBars2.length ∧
      closeAt wBars2 j ≠ closeAt wBars2 (j - 1) := by
    refine ⟨1, by norm_num, by norm_num, by rw [hlen]; norm_num, ?_⟩
    norm_num [closeAt, barAt, wBars2, List.getD_cons_zero,
      List.getD_cons_succ]
  have h := C2_feature_row_count wBars2 hc hv hnz
  exact ⟨h.1, h.2.1⟩

/- The assignment sequence of engineer_features overwrites the detected
   date column in place and appends every other derived column in source
   order, leaving the original column values untouched. -/
theorem engineer_features_effect_eq (bars : List Bar) :
    engineer_features_effect bars =
      inputFrame bars ++ (assignedCols bars).tail := by
  simp [engineer_features_effect, assignedCols, inputFrame, dateCol, setCol]

/-- C7 (corrected): engineer_features is not a pure transform of the
caller frame: after the call the caller frame consists of its original
columns (the date column coerced in place) followed by all appended
derived feature columns, so its column list differs from the passed one;
only the final dropna builds a fresh frame, and the function itself
performs no persistence. -/
theorem C7_frame_mutation (bars : List Bar) :
    engineer_features_effect bars =
      inputFrame bars ++ (assignedCols bars).tail ∧
    (engineer_features_effect bars).map Prod.fst ≠
      (inputFrame bars).map Prod.fst := by
  refine ⟨engineer_features_effect_eq bars, ?_⟩
  intro h
  have h2 := congrArg List.length h
  rw [List.length_map, List.length_map, engineer_features_effect_eq bars,
    List.length_append] at h2
  have h3 : (assignedCols bars).tail.length = 28 := rfl
  rw [h3] at h2
  omega

/-- C7 counterexample: already for a one-bar frame the caller frame after
the call differs from the frame that was passed in, because the derived
columns were added to it in place, refuting the no-columns-added purity
claim. -/
theorem C7_counterexample :
    engineer_features_effect [wBar1] ≠ inputFrame [wBar1] := by
  intro h
  have h2 := congrArg List.length h
  rw [engineer_features_effect_eq [wBar1], List.length_append] at h2
  have h3 : (assignedCols [wBar1]).tail.length = 28 := rfl
  rw [h3] at h2
  omega
